import Mathlib

/-!
Verification of the contact-extraction pipeline (Kontaktdaten repository).

The repository contains two pipeline variants:
* the Apify-actor variant (`src/main.js`, `src/utils.js`, and the validator
  module providing `validateContact` and `sanitizeContact`), embedded here
  in namespace `AV`;
* the Crawlee variant (the project embedded in the documentation file:
  `utils.js` with `RateLimiter` and `roleScore`, `validators.js` with
  `isValidEmail`, `isValidPhone`, `sanitizeName`, `dedupeByEmail`, and
  `main.js` with `processCompany`), embedded here in namespace `CV`.

Strings are modelled as lists of characters (`Str`).  JavaScript string
operations (`trim`, `toLowerCase`, `split`, regular-expression tests and
replacements) are translated into executable Lean functions on `Str`.
JavaScript numbers that hold integer scores are modelled as `Int`;
millisecond timestamps and counters as `Nat`.
-/

abbrev Str := List Char

/-- Whitespace characters as matched by the JavaScript `\s` class and by
`String.prototype.trim` (restricted to the ASCII range, which is the only
range the repository's inputs use). -/
def isWsChar (c : Char) : Bool :=
  c.toNat = 32 || c.toNat = 9 || c.toNat = 10 || c.toNat = 13 ||
  c.toNat = 11 || c.toNat = 12

/-- ASCII lower-casing, as `String.prototype.toLowerCase` acts on ASCII. -/
def charLower (c : Char) : Char :=
  if 65 ≤ c.toNat ∧ c.toNat ≤ 90 then Char.ofNat (c.toNat + 32) else c

def lowerStr (s : Str) : Str := s.map charLower

def isDigitChar (c : Char) : Bool := 48 ≤ c.toNat && c.toNat ≤ 57

def isUpperAlpha (c : Char) : Bool := 65 ≤ c.toNat && c.toNat ≤ 90

def isLowerAlpha (c : Char) : Bool := 97 ≤ c.toNat && c.toNat ≤ 122

def isAlphaChar (c : Char) : Bool := isUpperAlpha c || isLowerAlpha c

def isAlnumChar (c : Char) : Bool := isAlphaChar c || isDigitChar c

/-- `String.prototype.trim`: drop leading and trailing whitespace. -/
def trimRightStr (s : Str) : Str := (s.reverse.dropWhile isWsChar).reverse

def trimStr (s : Str) : Str := trimRightStr (s.dropWhile isWsChar)

/-- `String.prototype.includes`: `needle` occurs contiguously in `hay`. -/
def containsSub (hay needle : Str) : Bool :=
  match hay with
  | [] => needle.isEmpty
  | _ :: t => needle.isPrefixOf hay || containsSub t needle

/-- Split a string at every occurrence of the character `sep`
(`String.prototype.split`). -/
def splitOnChar (sep : Char) : Str → List Str
  | [] => [[]]
  | c :: rest =>
    if c = sep then
      [] :: splitOnChar sep rest
    else
      match splitOnChar sep rest with
      | [] => [[c]]
      | p :: ps => (c :: p) :: ps

/-- Split at the first occurrence of `sep`, if any. -/
def splitFirst (sep : Char) : Str → Option (Str × Str)
  | [] => none
  | c :: rest =>
    if c = sep then some ([], rest)
    else
      match splitFirst sep rest with
      | none => none
      | some (a, b) => some (c :: a, b)

-- Basic lemmas about the string utilities.

/-- JavaScript truthiness of an optional string field. -/
def present : Option Str → Bool
  | none => false
  | some s => !s.isEmpty

def hyphenOrAlnum (c : Char) : Bool := isAlnumChar c || c = '-'

/-! ### The Apify-actor pipeline variant (`src/`) -/

namespace AV

/-- One character of a legal-suffix regex pattern: in the source the suffix
denylist entries are spliced verbatim into `new RegExp` patterns, so a dot
inside a suffix (as in `e.V.`) is the regex wildcard, and the `i` flag makes
letters match case-insensitively. -/
def patCharOk (p c : Char) : Bool :=
  p = '.' || charLower p = charLower c

/-- Match the fixed-length pattern against the front of `s`, returning the
remaining characters on success. -/
def patMatch : Str → Str → Option Str
  | [], rest => some rest
  | _ :: _, [] => none
  | p :: ps, c :: cs => if patCharOk p c then patMatch ps cs else none

/-- Does `s` consist of the pattern followed by whitespace only
(the `SUFFIX\s*$` part of the replace regex)? -/
def patThenWs (pat s : Str) : Bool :=
  match patMatch pat s with
  | some r => r.all isWsChar
  | none => false

/-- Does `s` match `\s+SUFFIX\s*$` as a whole? -/
def wsPlusPat (pat : Str) : Str → Bool
  | [] => false
  | c :: rest => isWsChar c && (patThenWs pat rest || wsPlusPat pat rest)

/-- `str.replace(new RegExp(`\\s+SUFFIX\\s*$`, 'i'), '')`: cut the string at
the leftmost position whose suffix matches; the match always extends to the
end of the string, so everything from that position on is removed. -/
def replaceEnd (pat : Str) : Str → Str
  | [] => []
  | c :: rest =>
    if wsPlusPat pat (c :: rest) then [] else c :: replaceEnd pat rest

/-- Does any suffix position of `s` match `\s+SUFFIX\s*$`? -/
def hasTrailing (pat : Str) : Str → Bool
  | [] => false
  | c :: rest => wsPlusPat pat (c :: rest) || hasTrailing pat rest

/-- The ordered legal-entity suffix denylist from `normalizeCompanyName`. -/
def suffixPatterns : List Str :=
  (["GmbH", "AG", "SE", "KG", "OHG", "GbR", "UG", "e.V.", "Inc.", "LLC",
    "Ltd.", "Corp."] : List String).map String.data

/-- `normalizeCompanyName` from `src/utils.js`: trim, then for each suffix of
the denylist in order remove a trailing `\s+SUFFIX\s*$` match, then trim. -/
def normalizeCompanyName (companyName : Str) : Str :=
  if companyName = [] then []
  else
    trimStr (suffixPatterns.foldl (fun acc pat => replaceEnd pat acc)
      (trimStr companyName))

/-- The contact record shape used by the Apify-actor pipeline.  Optional
JavaScript fields are `Option Str` (`none` is `undefined`); `company` is the
string key the limiter groups on; `priorityVal` models the internal
`_priority` field written by `sortContactsByPriority`. -/
structure AContact where
  company : Str
  location : Option Str
  salutation : Option Str
  firstName : Option Str
  lastName : Option Str
  email : Option Str
  phone : Option Str
  jobTitle : Option Str
  linkedInUrl : Option Str
  source : Option Str
  scrapedAt : Option Str
  priorityVal : Option Int
deriving DecidableEq

/-! #### `validators.js` (Apify variant): field validators -/

/-- Characters of the local-part class of the simplified RFC 5322 regex in
`isValidEmail` (letters, digits, and the listed specials, dot included). -/
def localSpecials : Str :=
  ['.', '!', '#', '$', '%', '&', Char.ofNat 39, '*', '+', '/', '=', '?',
   '^', '_', Char.ofNat 96, Char.ofNat 123, '|', Char.ofNat 125, '~', '-']

def localChar (c : Char) : Bool := isAlnumChar c || localSpecials.contains c

/-- One domain label of the regex:
`[a-zA-Z0-9](?:[a-zA-Z0-9-]{0,61}[a-zA-Z0-9])?`. -/
def labelOk (l : Str) : Bool :=
  match l with
  | [] => false
  | c :: rest =>
    isAlnumChar c &&
    (match rest with
     | [] => true
     | _ :: _ =>
       rest.length ≤ 62 && rest.dropLast.all hyphenOrAlnum &&
       (match rest.getLast? with
        | some d => isAlnumChar d
        | none => false))

/-- Whole-string match of the simplified RFC 5322 regex of the Apify
`isValidEmail`: a nonempty local part over `localChar`, one `@`, and a
dot-separated sequence of valid labels. -/
def emailRegexOk (s : Str) : Bool :=
  match splitFirst '@' s with
  | none => false
  | some (loc, dom) =>
    !loc.isEmpty && loc.all localChar && (splitOnChar '.' dom).all labelOk

/-- The generic-inbox denylist of the Apify `isValidEmail`. -/
def genericPrefixes : List Str :=
  (["info", "contact", "office", "hello", "mail", "support", "admin",
    "noreply"] : List String).map String.data

/-- `email.split('@')[0]`: everything before the first `@`. -/
def localPartOf (email : Str) : Str := email.takeWhile (fun c => c ≠ '@')

/-- The generic-prefix rejection test: the lower-cased local part equals a
denylisted token or starts with the token followed by a dot. -/
def genericLocal (email : Str) : Bool :=
  genericPrefixes.any (fun g =>
    lowerStr (localPartOf email) = g ||
    (g ++ ['.']).isPrefixOf (lowerStr (localPartOf email)))

/-- `isValidEmail` from the Apify validators module: falsy input rejected,
then the generic-prefix check, then the regex test. -/
def isValidEmail : Option Str → Bool
  | none => false
  | some email =>
    if email.isEmpty then false
    else if genericLocal email then false
    else emailRegexOk email

def phoneStripChars (c : Char) : Bool :=
  isWsChar c || c = '-' || c = '(' || c = ')' || c = '.'

def placeholderRuns : List Str :=
  (["1234567", "0000000", "9999999", "1111111"] : List String).map String.data

/-- `[1-9]\d{1,3}\d{7,14}` — the digits after the `+`/`00` marker. -/
def phoneBodyOk (b : Str) : Bool :=
  match b with
  | [] => false
  | c :: _ =>
    b.all isDigitChar && (49 ≤ c.toNat && c.toNat ≤ 57) &&
    9 ≤ b.length && b.length ≤ 18

/-- `^(\+|00)[1-9]\d{1,3}\d{7,14}$`. -/
def intlPhoneOk (cleaned : Str) : Bool :=
  match cleaned with
  | '+' :: body => phoneBodyOk body
  | '0' :: '0' :: body => phoneBodyOk body
  | _ => false

/-- `^0\d{9,14}$`. -/
def germanLocalOk (cleaned : Str) : Bool :=
  match cleaned with
  | '0' :: rest => rest.all isDigitChar && 9 ≤ rest.length && rest.length ≤ 14
  | _ => false

/-- `isValidPhone` from the Apify validators module. -/
def isValidPhone : Option Str → Bool
  | none => false
  | some phone =>
    if phone.isEmpty then false
    else
      let cleaned := phone.filter (fun c => !phoneStripChars c)
      if placeholderRuns.any (fun p => containsSub cleaned p) then false
      else intlPhoneOk cleaned || germanLocalOk cleaned

def namePlaceholders : List Str :=
  (["xxx", "n/a", "tbd", "unknown", "test", "dummy", "placeholder",
    "name"] : List String).map String.data

/-- The accented letters of the name regex character class (the source file
stores them as UTF-8 double-decoded bytes; these are the encoded letters). -/
def nameAccents : Str :=
  ("äöüÄÖÜßáéíóúÁÉÍÓÚàèìòùÀÈÌÒÙâêîôûÂÊÎÔÛ").data

def nameChar (c : Char) : Bool :=
  isAlphaChar c || nameAccents.contains c || isWsChar c || c = '-' ||
  c = Char.ofNat 39 || c = '.'

/-- `isValidName` from the Apify validators module. -/
def isValidName : Option Str → Bool
  | none => false
  | some name =>
    if name.isEmpty then false
    else
      let trimmed := trimStr name
      if trimmed.length < 2 then false
      else if namePlaceholders.any (fun p => lowerStr trimmed = p) then false
      else trimmed.all nameChar

def validSalutations : List Str :=
  (["Herr", "Frau", "Mr", "Mrs", "Ms", "Dr", "Prof"] : List String).map
    String.data

/-- `isValidSalutation`: the lower-cased salutation must contain one of the
fixed salutations (lower-cased) as a substring. -/
def isValidSalutation : Option Str → Bool
  | none => false
  | some s =>
    if s.isEmpty then false
    else validSalutations.any (fun v => containsSub (lowerStr s) (lowerStr v))

def jobPlaceholders : List Str :=
  (["tbd", "n/a", "unknown", "test"] : List String).map String.data

/-- `isValidJobTitle` from the Apify validators module. -/
def isValidJobTitle : Option Str → Bool
  | none => false
  | some jobTitle =>
    if jobTitle.isEmpty then false
    else
      let trimmed := trimStr jobTitle
      if trimmed.length < 3 then false
      else !(jobPlaceholders.any (fun p => lowerStr trimmed = p))

/-- Consume an expected literal from the front of the string. -/
def dropPre (p s : Str) : Option Str :=
  if p.isPrefixOf s then some (s.drop p.length) else none

def linkedSegChar (c : Char) : Bool := isAlnumChar c || c = '-'

/-- `isValidLinkedInUrl`:
`^https?:\/\/(www\.)?linkedin\.com\/(in|pub)\/[a-zA-Z0-9\-]+\/?$`. -/
def isValidLinkedInUrl : Option Str → Bool
  | none => false
  | some url =>
    if url.isEmpty then false
    else
      let afterScheme :=
        match dropPre ("https://").data url with
        | some r => some r
        | none => dropPre ("http://").data url
      match afterScheme with
      | none => false
      | some r1 =>
        let r2 := match dropPre ("www.").data r1 with
                  | some r => r
                  | none => r1
        match dropPre ("linkedin.com/").data r2 with
        | none => false
        | some r3 =>
          let r4 :=
            match dropPre ("in/").data r3 with
            | some r => some r
            | none => dropPre ("pub/").data r3
          match r4 with
          | none => false
          | some r5 =>
            let seg := r5.takeWhile linkedSegChar
            !seg.isEmpty &&
            (r5.drop seg.length = [] || r5.drop seg.length = ['/'])

/-- `validateContact`: the list of violated-rule messages, in source order;
the record is valid when the list is empty. -/
def validateErrors (c : AContact) : List Str :=
  (if trimStr c.company = [] then [("Company name is required").data]
   else []) ++
  (if isValidName c.firstName then []
   else [("Invalid or missing first name").data]) ++
  (if isValidName c.lastName then []
   else [("Invalid or missing last name").data]) ++
  (if isValidEmail c.email then []
   else [("Invalid or generic email address").data]) ++
  (if isValidJobTitle c.jobTitle then []
   else [("Invalid or missing job title").data]) ++
  (if present c.phone && !isValidPhone c.phone then
    [("Invalid phone number format").data]
   else []) ++
  (if present c.salutation && !isValidSalutation c.salutation then
    [("Invalid salutation").data]
   else []) ++
  (if present c.linkedInUrl && !isValidLinkedInUrl c.linkedInUrl then
    [("Invalid LinkedIn URL").data]
   else [])

def validateIsValid (c : AContact) : Bool := (validateErrors c).isEmpty

/-- `sanitizeContact` from the Apify validators module: every field of the
returned object is a plain string (`trim`med, e-mail lower-cased, defaults
substituted), and the result carries no `_priority`.  `now` stands for
`new Date().toISOString()`. -/
def sanitizeContact (now : Str) (c : AContact) : AContact :=
  { company := trimStr c.company,
    location := some (trimStr (c.location.getD [])),
    salutation := some (trimStr (c.salutation.getD [])),
    firstName := some (trimStr (c.firstName.getD [])),
    lastName := some (trimStr (c.lastName.getD [])),
    email := some (lowerStr (trimStr (c.email.getD []))),
    phone := some (trimStr (c.phone.getD [])),
    jobTitle := some (trimStr (c.jobTitle.getD [])),
    linkedInUrl := some (trimStr (c.linkedInUrl.getD [])),
    source := some (if c.source.getD [] = [] then ("unknown").data
                    else c.source.getD []),
    scrapedAt := some (if c.scrapedAt.getD [] = [] then now
                       else c.scrapedAt.getD []),
    priorityVal := none }

/-! #### `utils.js` (Apify variant): ranking, dedupe, limiting -/

def leadershipKeywords : List Str :=
  (["head", "director", "chief", "vp", "vice president", "c-level",
    "leiter", "lead"] : List String).map String.data

/-- The scan of `calculateRolePriority` over the target roles, carrying the
running index. -/
def rolePriorityLoop (titleL : Str) : List Str → Nat → Int
  | [], _ =>
    if leadershipKeywords.any (fun kw => containsSub titleL kw) then 100
    else 0
  | role :: rest, i =>
    let targetRole := lowerStr role
    if titleL = targetRole then 1000 - (i : Int)
    else if containsSub titleL targetRole || containsSub targetRole titleL
      then 500 - (i : Int)
    else rolePriorityLoop titleL rest (i + 1)

/-- `calculateRolePriority` from `src/utils.js`. -/
def calculateRolePriority (jobTitle : Str) (targetRoles : List Str) : Int :=
  if jobTitle = [] then 0
  else rolePriorityLoop (lowerStr jobTitle) targetRoles 0

/-- Classify how a (lower-cased) title relates to one target role: exact
match, substring match in either direction, or no match. -/
def matchClass (titleL role : Str) : Option Bool :=
  let targetRole := lowerStr role
  if titleL = targetRole then some true
  else if containsSub titleL targetRole || containsSub targetRole titleL
    then some false
  else none

/-- The first list position (with its match kind) at which the title
matches a target role — the position `calculateRolePriority`'s scan stops
at. -/
def firstRoleMatch (titleL : Str) (roles : List Str) : Option (Nat × Bool) :=
  (List.enumFrom 0 roles).findSome?
    (fun p => (matchClass titleL p.2).map (fun b => (p.1, b)))

/-- `contact._priority || 0`. -/
def priorityOf (c : AContact) : Int := (c.priorityVal).getD 0

/-- The `Map` key of `deduplicateContacts`:
`contact.email?.toLowerCase()` when truthy. -/
def dedupKey (c : AContact) : Option Str :=
  match c.email with
  | none => none
  | some e => if lowerStr e = [] then none else some (lowerStr e)

/-- `Map.set` on an insertion-ordered association list, keeping the
higher-priority contact on a key collision. -/
def seenInsert (k : Str) (c : AContact) :
    List (Str × AContact) → List (Str × AContact)
  | [] => [(k, c)]
  | (k', c') :: rest =>
    if k' = k then
      (k', if priorityOf c > priorityOf c' then c else c') :: rest
    else (k', c') :: seenInsert k c rest

/-- The loop body of `deduplicateContacts`: skip a contact with no usable
e-mail key, otherwise insert it into the seen map. -/
def dedupStep (seen : List (Str × AContact)) (c : AContact) :
    List (Str × AContact) :=
  match dedupKey c with
  | none => seen
  | some k => seenInsert k c seen

/-- `deduplicateContacts` from `src/utils.js`: contacts whose e-mail is
absent or empty are skipped (`continue`); the rest are grouped by
lower-cased e-mail, keeping the higher-priority entry. -/
def deduplicateContacts (contacts : List AContact) : List AContact :=
  (contacts.foldl dedupStep []).map Prod.snd

/-- Stable descending insertion, modelling the (ES2019-stable) JavaScript
sort with comparator `(a, b) => b._priority - a._priority`. -/
def insertDesc (c : AContact) : List AContact → List AContact
  | [] => [c]
  | d :: rest =>
    if priorityOf d ≥ priorityOf c then d :: insertDesc c rest
    else c :: d :: rest

/-- `sortContactsByPriority` from `src/utils.js`: annotate each contact with
its role priority, then sort descending by priority (stable). -/
def sortContactsByPriority (contacts : List AContact)
    (targetRoles : List Str) : List AContact :=
  (contacts.map (fun c =>
    { c with
      priorityVal := some
        (calculateRolePriority (c.jobTitle.getD []) targetRoles) })).foldl
    (fun acc c => insertDesc c acc) []

/-- Append a contact to its company's group, creating the group at the end
on first sight (JavaScript object insertion order). -/
def addToGroup (c : AContact) :
    List (Str × List AContact) → List (Str × List AContact)
  | [] => [(c.company, [c])]
  | (k, g) :: rest =>
    if k = c.company then (k, g ++ [c]) :: rest
    else (k, g) :: addToGroup c rest

def buildGroups (contacts : List AContact) : List (Str × List AContact) :=
  contacts.foldl (fun gs c => addToGroup c gs) []

/-- Look up a company's group (the empty list when the key is absent). -/
def groupFind (k : Str) : List (Str × List AContact) → List AContact
  | [] => []
  | (k', g) :: rest => if k' = k then g else groupFind k rest

def collectLimited (m : Nat) : List (Str × List AContact) → List AContact
  | [] => []
  | (_, g) :: rest => g.take m ++ collectLimited m rest

/-- `limitContactsPerCompany` from `src/utils.js`: group by company, then
emit `slice(0, maxPerCompany)` of each group. -/
def limitContactsPerCompany (contacts : List AContact)
    (maxPerCompany : Nat) : List AContact :=
  collectLimited maxPerCompany (buildGroups contacts)

/-! #### `main.js` (Apify variant): per-company processing and statistics -/

structure Stats where
  companiesProcessed : Nat
  contactsFound : Nat
  contactsValid : Nat
  contactsSaved : Nat
  errors : Nat
deriving DecidableEq

def initStats : Stats := ⟨0, 0, 0, 0, 0⟩

/-- One iteration of the validate-and-save loop: a contact passing
`validateContact` is pushed to the dataset and increments `contactsValid`
and `contactsSaved` together; an invalid one only logs. -/
def saveStep (st : Stats) (c : AContact) : Stats :=
  if validateIsValid c then
    { st with contactsValid := st.contactsValid + 1,
              contactsSaved := st.contactsSaved + 1 }
  else st

/-- The per-company contact pipeline of `Actor.main`: sort by priority,
deduplicate by e-mail, limit per company. -/
def pipelineCompany (targetRoles : List Str) (maxPerCompany : Nat)
    (contacts : List AContact) : List AContact :=
  limitContactsPerCompany
    (deduplicateContacts (sortContactsByPriority contacts targetRoles))
    maxPerCompany

/-- How one company's iteration of `Actor.main` terminates: normally, or by
an exception thrown after `savedSoFar` contacts were already saved (the
`catch` block then increments `errors` instead of `companiesProcessed`). -/
inductive CompanyOutcome
  | completed
  | aborted (savedSoFar : Nat)
deriving DecidableEq

/-- The statistics updates of one company iteration of `Actor.main`. -/
def companyStep (targetRoles : List Str) (maxPerCompany : Nat) (st : Stats)
    (job : List AContact × CompanyOutcome) : Stats :=
  let st1 := { st with contactsFound := st.contactsFound + job.1.length }
  let limited := pipelineCompany targetRoles maxPerCompany job.1
  match job.2 with
  | .completed =>
    let st2 := limited.foldl saveStep st1
    { st2 with companiesProcessed := st2.companiesProcessed + 1 }
  | .aborted k =>
    let st2 := (limited.take k).foldl saveStep st1
    { st2 with errors := st2.errors + 1 }

/-- A whole run of `Actor.main`: fold the company steps over the per-company
extraction results, starting from all-zero statistics. -/
def runStats (targetRoles : List Str) (maxPerCompany : Nat)
    (jobs : List (List AContact × CompanyOutcome)) : Stats :=
  jobs.foldl (companyStep targetRoles maxPerCompany) initStats

end AV

/-! ### The Crawlee pipeline variant (the project embedded in the docs) -/

namespace CV

/-! #### `validators.js` (Crawlee variant) -/

/-- `atext` of the full RFC 5322 regex: letters, digits and the specials,
without the dot. -/
def atomSpecials : Str :=
  ['!', '#', '$', '%', '&', Char.ofNat 39, '*', '+', '/', '=', '?', '^',
   '_', Char.ofNat 96, Char.ofNat 123, '|', Char.ofNat 125, '~', '-']

def atomChar (c : Char) : Bool := isAlnumChar c || atomSpecials.contains c

/-- `dot-atom` local part: nonempty atext runs separated by single dots. -/
def dotAtomOk (l : Str) : Bool :=
  (splitOnChar '.' l).all (fun part => !part.isEmpty && part.all atomChar)

/-- An unescaped character inside a quoted local part:
`[\x01-\x08\x0b\x0c\x0e-\x1f\x21\x23-\x5b\x5d-\x7f]`. -/
def qcharSingle (c : Char) : Bool :=
  (1 ≤ c.toNat && c.toNat ≤ 8) || c.toNat = 11 || c.toNat = 12 ||
  (14 ≤ c.toNat && c.toNat ≤ 31) || c.toNat = 33 ||
  (35 ≤ c.toNat && c.toNat ≤ 91) || (93 ≤ c.toNat && c.toNat ≤ 127)

/-- A character allowed after a backslash inside a quoted local part:
`[\x01-\x09\x0b\x0c\x0e-\x7f]`. -/
def qcharEsc (c : Char) : Bool :=
  (1 ≤ c.toNat && c.toNat ≤ 9) || c.toNat = 11 || c.toNat = 12 ||
  (14 ≤ c.toNat && c.toNat ≤ 127)

/-- Scan a quoted local part after its opening quote; on success return the
remainder after the closing quote.  The character classes make the scan
deterministic: an unescaped quote always closes, a backslash always
consumes the following character. -/
def quotedRest : Str → Option Str
  | [] => none
  | c :: rest =>
    if c.toNat = 34 then some rest
    else if c.toNat = 92 then
      match rest with
      | [] => none
      | d :: rest2 => if qcharEsc d then quotedRest rest2 else none
    else if qcharSingle c then quotedRest rest else none

/-- A non-final domain label:
`[a-zA-Z0-9](?:[a-zA-Z0-9-]*[a-zA-Z0-9])?` (no length bound). -/
def labelNB (p : Str) : Bool :=
  match p with
  | [] => false
  | c :: rest =>
    isAlnumChar c &&
    (match rest with
     | [] => true
     | _ :: _ =>
       rest.dropLast.all hyphenOrAlnum &&
       (match rest.getLast? with
        | some d => isAlnumChar d
        | none => false))

/-- Host-name form of the domain: `(label\.)+[a-zA-Z]{2,}`. -/
def hostOk (d : Str) : Bool :=
  let parts := splitOnChar '.' d
  2 ≤ parts.length && parts.dropLast.all labelNB &&
  (match parts.getLast? with
   | some t => 2 ≤ t.length && t.all isAlphaChar
   | none => false)

/-- One IPv4 octet: `25[0-5]|2[0-4][0-9]|[01]?[0-9][0-9]?`. -/
def octetOk (p : Str) : Bool :=
  (match p with
   | ['2', '5', c] => 48 ≤ c.toNat && c.toNat ≤ 53
   | _ => false) ||
  (match p with
   | ['2', c, d] => (48 ≤ c.toNat && c.toNat ≤ 52) && isDigitChar d
   | _ => false) ||
  (match p with
   | [c] => isDigitChar c
   | [c, d] => isDigitChar c && isDigitChar d
   | [c, d, e] => (c = '0' || c = '1') && isDigitChar d && isDigitChar e
   | _ => false)

/-- Bracketed IPv4 literal form of the domain. -/
def ipOk (d : Str) : Bool :=
  match d with
  | '[' :: rest =>
    (match rest.getLast? with
     | some c =>
       c = ']' &&
       (let parts := splitOnChar '.' rest.dropLast
        parts.length = 4 && parts.all octetOk)
     | none => false)
  | _ => false

def domainOk (d : Str) : Bool := hostOk d || ipOk d

/-- Whole-string match of `EMAIL_RFC5322_REGEX`. -/
def rfc5322Ok (e : Str) : Bool :=
  match e with
  | [] => false
  | c :: rest =>
    if c.toNat = 34 then
      match quotedRest rest with
      | some ('@' :: dom) => domainOk dom
      | _ => false
    else
      match splitFirst '@' e with
      | none => false
      | some (loc, dom) => dotAtomOk loc && domainOk dom

/-- The generic-inbox prefixes banned by the Crawlee `isValidEmail`. -/
def bannedStarts : List Str :=
  (["info@", "contact@", "hello@", "support@", "noreply@",
    "no-reply@"] : List String).map String.data

/-- `isValidEmail` from the Crawlee validators module: trim, length bound
254, the full RFC 5322 regex, then the banned-prefix check on the
lower-cased address. -/
def isValidEmail (email : Str) : Bool :=
  if email = [] then false
  else
    let e := trimStr email
    if 254 < e.length then false
    else if !rfc5322Ok e then false
    else if bannedStarts.any (fun b => b.isPrefixOf (lowerStr e)) then false
    else true

/-- `^\+?[1-9]\d{6,14}$` applied to the kept `[+0-9]` characters. -/
def e164Ok (s : Str) : Bool :=
  let body := match s with
              | '+' :: r => r
              | r => r
  match body with
  | [] => false
  | c :: _ =>
    (49 ≤ c.toNat && c.toNat ≤ 57) && body.all isDigitChar &&
    7 ≤ body.length && body.length ≤ 15

/-- `isValidPhone` from the Crawlee validators module:
`phone.replace(/[^+0-9]/g, '')` then the E.164-ish regex. -/
def isValidPhone (phone : Str) : Bool :=
  if phone = [] then false
  else e164Ok (phone.filter (fun c => c = '+' || isDigitChar c))

/-- `sanitizeName`: `null` for falsy input, `null` for all-whitespace,
otherwise the trimmed name. -/
def sanitizeName : Option Str → Option Str
  | none => none
  | some name =>
    if name.isEmpty then none
    else
      let s := trimStr name
      if s.length = 0 then none else some s

/-! #### data shapes of the Crawlee `processCompany` -/

/-- A raw candidate as produced by the extractors. -/
structure CCand where
  location : Option Str
  salutation : Option Str
  firstName : Option Str
  lastName : Option Str
  email : Option Str
  phone : Option Str
  jobTitle : Option Str
  linkedInUrl : Option Str
  source : Option Str
deriving DecidableEq

/-- A validated/normalized contact object as built inside `processCompany`. -/
structure CContact where
  company : Str
  location : Option Str
  salutation : Option Str
  firstName : Option Str
  lastName : Option Str
  email : Option Str
  phone : Option Str
  jobTitle : Option Str
  linkedInUrl : Option Str
  source : Str
  scrapedAt : Str
deriving DecidableEq

/-- `x || null` on an optional string: the empty string collapses to
`null`. -/
def orNull : Option Str → Option Str
  | none => none
  | some s => if s.isEmpty then none else some s

/-- `p.replace(/[\s()\-\.]+/g, '')`. -/
def stripPhone (p : Str) : Str :=
  p.filter (fun c => !(isWsChar c || c = '(' || c = ')' || c = '-' || c = '.'))

def unknownSrc : Str := ("unknown").data

def websiteSrc : Str := ("website").data

/-- The normalized contact object built for each raw candidate in
`processCompany` (`now` models `new Date().toISOString()`). -/
def mkValidatedObj (normalized now : Str) (c : CCand) : CContact :=
  { company := normalized,
    location := orNull c.location,
    salutation := orNull c.salutation,
    firstName := sanitizeName c.firstName,
    lastName := sanitizeName c.lastName,
    email := orNull (match c.email with
                     | none => none
                     | some e => if e.isEmpty then none else some (trimStr e)),
    phone := orNull (match c.phone with
                     | none => none
                     | some p =>
                       if p.isEmpty then none
                       else some (stripPhone (trimStr p))),
    jobTitle := orNull c.jobTitle,
    linkedInUrl := orNull c.linkedInUrl,
    source := (match c.source with
               | none => unknownSrc
               | some s => if s.isEmpty then unknownSrc else s),
    scrapedAt := now }

/-- The validate-and-collect step: keep the object if its e-mail validates,
else if its phone validates, else drop it. -/
def validStep (normalized now : Str) (c : CCand) : Option CContact :=
  let obj := mkValidatedObj normalized now c
  if (match obj.email with
      | some e => isValidEmail e
      | none => false) then some obj
  else if (match obj.phone with
           | some p => isValidPhone p
           | none => false) then some obj
  else none

/-- `dedupeByEmail`: first-seen wins, keyed by lower-cased e-mail,
candidates without an e-mail are skipped. -/
def dedupeByEmail (contacts : List CContact) : List CContact :=
  (contacts.foldl (fun m c =>
    match c.email with
    | none => m
    | some e =>
      if e.isEmpty then m
      else if m.any (fun p => p.1 = lowerStr e) then m
      else m ++ [(lowerStr e, c)]) ([] : List (Str × CContact))).map Prod.snd

/-- Does the raw candidate carry a truthy e-mail (`c.email` truthiness in
the validate and backfill branches)? -/
def emailBacked (c : CCand) : Bool := present c.email

/-- The e-mail acceptance condition of the validate step, expressed on the
raw candidate: the normalized object's e-mail exists and validates. -/
def emailValidOf (c : CCand) : Bool :=
  match orNull (match c.email with
                | none => none
                | some e => if e.isEmpty then none else some (trimStr e)) with
  | some e => isValidEmail e
  | none => false

/-- The phone acceptance condition of the validate step, expressed on the
raw candidate: the normalized object's phone exists and validates. -/
def phoneValidObjOf (c : CCand) : Bool :=
  match orNull (match c.phone with
                | none => none
                | some p =>
                  if p.isEmpty then none
                  else some (stripPhone (trimStr p))) with
  | some p => isValidPhone p
  | none => false

/-- A validated phone-only candidate: no e-mail, a truthy phone, and the
stripped phone passes validation — exactly the backfill condition. -/
def phoneOnlyValid (c : CCand) : Bool :=
  !(present c.email) && present c.phone &&
  isValidPhone (stripPhone (c.phone.getD []))

/-! #### `utils.js` (Crawlee variant): role scores -/

/-- The `ROLE_PRIORITY` table, in object-key insertion order (the `ctO` key
is present in the source verbatim). -/
def rolePriorityTable : List (Str × Int) :=
  [(("ctO").data, 100), (("cto").data, 100), (("cio").data, 95),
   (("head of it").data, 90), (("it-leiter").data, 90),
   (("it manager").data, 85), (("vp engineering").data, 80),
   (("engineering manager").data, 70),
   (("head of talent acquisition").data, 60), (("hr director").data, 50),
   (("recruiting manager").data, 45)]

/-- `roleScore` from the Crawlee `utils.js`: the maximum table value whose
key occurs in the lower-cased title. -/
def roleScore (title : Str) : Int :=
  if title = [] then 0
  else
    rolePriorityTable.foldl (fun score kv =>
      if containsSub (lowerStr title) kv.1 then max score kv.2 else score) 0

/-- `sourcePriority[a.source] || 0`. -/
def sourcePriorityOf (s : Str) : Int :=
  if s = ("linkedin").data then 100
  else if s = websiteSrc then 80
  else if s = ("xing").data then 70
  else if s = ("impressum").data then 60
  else if s = unknownSrc then 50
  else 0

/-- `comparator(d, c) ≤ 0` for the final sort of `processCompany`: keep `d`
before a later `c` (the stable-sort condition). -/
def sortKeep (d c : CContact) : Bool :=
  if roleScore (d.jobTitle.getD []) = roleScore (c.jobTitle.getD []) then
    sourcePriorityOf c.source ≤ sourcePriorityOf d.source
  else roleScore (c.jobTitle.getD []) < roleScore (d.jobTitle.getD [])

def insertCV (c : CContact) : List CContact → List CContact
  | [] => [c]
  | d :: rest => if sortKeep d c then d :: insertCV c rest else c :: d :: rest

/-- The stable sort by role relevance then source preference. -/
def sortCV (l : List CContact) : List CContact :=
  l.foldl (fun acc c => insertCV c acc) []

/-- The phone-only backfill object pushed when fewer than two deduped
contacts exist (its `source` default is `'website'`, unlike the validated
object's `'unknown'`). -/
def backfillObj (normalized now : Str) (c : CCand) : CContact :=
  { company := normalized,
    location := orNull c.location,
    salutation := orNull c.salutation,
    firstName := sanitizeName c.firstName,
    lastName := sanitizeName c.lastName,
    email := none,
    phone := some (stripPhone (c.phone.getD [])),
    jobTitle := orNull c.jobTitle,
    linkedInUrl := orNull c.linkedInUrl,
    source := (match c.source with
               | none => websiteSrc
               | some s => if s.isEmpty then websiteSrc else s),
    scrapedAt := now }

/-- The backfill scan over the raw candidates: stop at two results, push
each e-mail-less candidate whose stripped phone validates. -/
def backfillLoop (normalized now : Str) (acc : List CContact) :
    List CCand → List CContact
  | [] => acc
  | c :: rest =>
    if 2 ≤ acc.length then acc
    else if !(present c.email) && present c.phone then
      if isValidPhone (stripPhone (c.phone.getD [])) then
        backfillLoop normalized now (acc ++ [backfillObj normalized now c])
          rest
      else backfillLoop normalized now acc rest
    else backfillLoop normalized now acc rest

/-- `processCompany` from the Crawlee `main.js`, from the raw candidate list
to the (at most two) contacts pushed to the dataset. -/
def processCompany (normalized now : Str) (cands : List CCand) :
    List CContact :=
  let validated := cands.filterMap (validStep normalized now)
  let deduped := dedupeByEmail validated
  let final :=
    if deduped.length < 2 then backfillLoop normalized now deduped cands
    else deduped
  (sortCV final).take 2

end CV

/-! ### The `RateLimiter` of the Crawlee `utils.js` under cooperative
interleaving

`waitFor(domain)` reads `lastCall.get(domain)`, computes the elapsed time,
and either completes synchronously (writing `Date.now()`) when the elapsed
time is at least `minDelayMs`, or suspends in `await sleep(...)` and only
writes the new timestamp after resuming.  An async function runs
synchronously up to its first `await`, so the no-sleep path is one atomic
block, while the sleep path splits the read and the write into two blocks
between which any other task may run.  The model executes a schedule of
`(task, time)` events over that block structure. -/

namespace RL

/-- Where a `waitFor` call stands: not yet started, suspended in
`await sleep` until `wake`, or returned at `finish` (`waited` records
whether the sleep branch was taken). -/
inductive TPhase
  | pending
  | sleeping (wake : Nat)
  | done (finish : Nat) (waited : Bool)
deriving DecidableEq

structure RLTask where
  key : Str
  arrive : Nat
  phase : TPhase
deriving DecidableEq

structure Sys where
  lastCall : List (Str × Nat)
  tasks : List RLTask
deriving DecidableEq

/-- `this.lastCall.get(domain) || 0`. -/
def mapGet (m : List (Str × Nat)) (k : Str) : Nat :=
  match m with
  | [] => 0
  | (k', v) :: rest => if k' = k then v else mapGet rest k

/-- `this.lastCall.set(domain, t)`. -/
def mapSet (m : List (Str × Nat)) (k : Str) (v : Nat) : List (Str × Nat) :=
  match m with
  | [] => [(k, v)]
  | (k', v') :: rest =>
    if k' = k then (k', v) :: rest else (k', v') :: mapSet rest k v

/-- Run the next atomic block of task `i` at time `t` (a no-op unless the
task is startable or due to wake). -/
def stepTask (minDelayMs : Nat) (s : Sys) (i : Nat) (t : Nat) : Sys :=
  match s.tasks.get? i with
  | none => s
  | some task =>
    match task.phase with
    | .pending =>
      if t < task.arrive then s
      else
        let last := mapGet s.lastCall task.key
        let elapsed := t - last
        if elapsed < minDelayMs then
          let slept := { task with phase := .sleeping (t + (minDelayMs - elapsed)) }
          { s with tasks := s.tasks.set i slept }
        else
          let fin := { task with phase := .done t false }
          { lastCall := mapSet s.lastCall task.key t, tasks := s.tasks.set i fin }
    | .sleeping wake =>
      if t < wake then s
      else
        let fin := { task with phase := .done t true }
        { lastCall := mapSet s.lastCall task.key t, tasks := s.tasks.set i fin }
    | .done _ _ => s

/-- Execute a schedule of `(task index, time)` events. -/
def runSched (minDelayMs : Nat) (s : Sys) : List (Nat × Nat) → Sys
  | [] => s
  | (i, t) :: rest => runSched minDelayMs (stepTask minDelayMs s i t) rest

end RL

/-! ### Concrete instances used by witnesses and counterexamples -/

/-- A contact with every optional field absent. -/
def cAllAbsent : AV.AContact :=
  { company := ("Acme").data, location := none, salutation := none,
    firstName := none, lastName := none, email := none, phone := none,
    jobTitle := none, linkedInUrl := none, source := none, scrapedAt := none,
    priorityVal := none }

/-- A Crawlee raw candidate with every field absent. -/
def cvAllAbsent : CV.CCand :=
  { location := none, salutation := none, firstName := none,
    lastName := none, email := none, phone := none, jobTitle := none,
    linkedInUrl := none, source := none }

/-- A candidate whose e-mail is syntactically invalid but whose phone is
valid: it passes validation through the phone branch while keeping its
e-mail. -/
def c4BadEmail : CV.CCand :=
  { location := none, salutation := none, firstName := none,
    lastName := none, email := some (("not-an-email").data),
    phone := some (("+4915112345678").data), jobTitle := none,
    linkedInUrl := none, source := some (("website").data) }

/-- A validated phone-only candidate (no e-mail, valid phone). -/
def c4PhoneOnly : CV.CCand :=
  { location := none, salutation := none,
    firstName := some (("Max").data), lastName := some (("Muster").data),
    email := none, phone := some (("+49 171 1234568").data),
    jobTitle := none, linkedInUrl := none,
    source := some (("website").data) }

def c4Comp : Str := ("Acme").data

def c4Now : Str := ("2025-11-14T10:30:00.000Z").data

/-- The domain key of the rate-limiter race trace. -/
def rlKey : Str := ("example.com").data

/-- Rate-limiter race configuration: one prior call for the key recorded at
t = 10000 ms, minimum delay 1000 ms, and two tasks calling `waitFor` for the
same key at t = 10500 and t = 10600. -/
def rlSys0 : RL.Sys :=
  { lastCall := [(rlKey, 10000)],
    tasks := [{ key := rlKey, arrive := 10500, phase := RL.TPhase.pending },
              { key := rlKey, arrive := 10600, phase := RL.TPhase.pending }] }

/-- The race schedule: both tasks run their read block (and start sleeping)
before either runs its write block at wake-up time t = 11000. -/
def rlSched : List (Nat × Nat) := [(0, 10500), (1, 10600), (0, 11000), (1, 11000)]

/-! ### Proofs: string-utility lemmas -/

theorem charOfNat_toNat_small (n : Nat) (h : n < 55296) :
    (Char.ofNat n).toNat = n := by
  have hvalid : n.isValidChar := Or.inl h
  simp [Char.ofNat, hvalid, Char.ofNatAux, Char.toNat, UInt32.toNat]

theorem isWsChar_charLower (c : Char) : isWsChar (charLower c) = isWsChar c := by
  by_cases h : 65 ≤ c.toNat ∧ c.toNat ≤ 90
  · have hv : (Char.ofNat (c.toNat + 32)).toNat = c.toNat + 32 :=
      charOfNat_toNat_small _ (by omega)
    have h1 : charLower c = Char.ofNat (c.toNat + 32) := by
      unfold charLower
      rw [if_pos h]
    rw [h1]
    unfold isWsChar
    rw [hv]
    trans false
    · simp only [Bool.or_eq_false_iff, decide_eq_false_iff_not]
      omega
    · symm
      simp only [Bool.or_eq_false_iff, decide_eq_false_iff_not]
      omega
  · have h1 : charLower c = c := by
      unfold charLower
      rw [if_neg h]
    rw [h1]

theorem charLower_charLower (c : Char) :
    charLower (charLower c) = charLower c := by
  by_cases h : 65 ≤ c.toNat ∧ c.toNat ≤ 90
  · have hv : (Char.ofNat (c.toNat + 32)).toNat = c.toNat + 32 :=
      charOfNat_toNat_small _ (by omega)
    have h1 : charLower c = Char.ofNat (c.toNat + 32) := by
      unfold charLower
      rw [if_pos h]
    rw [h1]
    conv_lhs => unfold charLower
    rw [if_neg]
    rw [hv]
    omega
  · have h1 : charLower c = c := by
      unfold charLower
      rw [if_neg h]
    rw [h1, h1]

theorem lowerStr_lowerStr (s : Str) : lowerStr (lowerStr s) = lowerStr s := by
  unfold lowerStr
  rw [List.map_map]
  apply List.map_congr_left
  intro c _
  exact charLower_charLower c

theorem dropWhile_ws_lowerStr (s : Str) :
    (lowerStr s).dropWhile isWsChar = lowerStr (s.dropWhile isWsChar) := by
  induction s with
  | nil => rfl
  | cons c t ih =>
    simp only [lowerStr, List.map_cons, List.dropWhile_cons, isWsChar_charLower]
    split
    · exact ih
    · rfl

theorem trimStr_lowerStr (s : Str) :
    trimStr (lowerStr s) = lowerStr (trimStr s) := by
  unfold trimStr trimRightStr
  rw [dropWhile_ws_lowerStr]
  rw [show (lowerStr (s.dropWhile isWsChar)).reverse
      = lowerStr (s.dropWhile isWsChar).reverse by simp [lowerStr]]
  rw [dropWhile_ws_lowerStr]
  simp [lowerStr]

theorem dropWhile_ws_idem (s : Str) :
    (s.dropWhile isWsChar).dropWhile isWsChar = s.dropWhile isWsChar := by
  induction s with
  | nil => rfl
  | cons a t ih =>
    by_cases h : isWsChar a
    · simp [List.dropWhile_cons, h, ih]
    · simp [List.dropWhile_cons, h]

theorem trimRightStr_trimRightStr (s : Str) :
    trimRightStr (trimRightStr s) = trimRightStr s := by
  unfold trimRightStr
  rw [List.reverse_reverse, dropWhile_ws_idem]

theorem trimRightStr_front (u : Str) : trimRightStr u <+: u := by
  unfold trimRightStr
  have h := List.dropWhile_suffix (l := u.reverse) (p := isWsChar)
  have h2 := List.IsSuffix.reverse h
  simpa using h2

theorem dropWhile_ws_of_front (u v : Str) (hp : v <+: u)
    (hu : u.dropWhile isWsChar = u) : v.dropWhile isWsChar = v := by
  cases v with
  | nil => rfl
  | cons c v' =>
    obtain ⟨t, ht⟩ := hp
    subst ht
    by_cases h : isWsChar c
    · exfalso
      simp only [List.cons_append, List.dropWhile_cons, h, if_true] at hu
      have hlen := congrArg List.length hu
      have hsuf := List.dropWhile_suffix (l := v' ++ t) (p := isWsChar)
      have hle := List.IsSuffix.length_le hsuf
      have ha : (v' ++ t).length = v'.length + t.length := by simp
      simp at hlen
      omega
    · simp [List.dropWhile_cons, h]

theorem trimStr_trimStr (s : Str) : trimStr (trimStr s) = trimStr s := by
  unfold trimStr
  have hu : (s.dropWhile isWsChar).dropWhile isWsChar = s.dropWhile isWsChar :=
    dropWhile_ws_idem s
  rw [dropWhile_ws_of_front (s.dropWhile isWsChar)
    (trimRightStr (s.dropWhile isWsChar)) (trimRightStr_front _) hu]
  exact trimRightStr_trimRightStr _

theorem dropWhile_ws_trimStr (s : Str) :
    (trimStr s).dropWhile isWsChar = trimStr s := by
  unfold trimStr
  exact dropWhile_ws_of_front (s.dropWhile isWsChar)
    (trimRightStr (s.dropWhile isWsChar)) (trimRightStr_front _)
    (dropWhile_ws_idem s)

theorem trimStr_of_prefix_trimStr (s x : Str) (hp : x <+: trimStr s) :
    trimStr x <+: trimStr s := by
  have hx : x.dropWhile isWsChar = x :=
    dropWhile_ws_of_front (trimStr s) x hp (dropWhile_ws_trimStr s)
  unfold trimStr
  rw [hx]
  exact List.IsPrefix.trans (trimRightStr_front x) hp

namespace AV

theorem replaceEnd_front (pat s : Str) : replaceEnd pat s <+: s := by
  induction s with
  | nil => exact List.nil_prefix
  | cons c rest ih =>
    unfold replaceEnd
    split
    · exact List.nil_prefix
    · exact List.cons_prefix_cons.mpr ⟨rfl, ih⟩

theorem replaceEnd_of_not_hasTrailing (pat s : Str)
    (h : hasTrailing pat s = false) : replaceEnd pat s = s := by
  induction s with
  | nil => rfl
  | cons c rest ih =>
    unfold hasTrailing at h
    simp only [Bool.or_eq_false_iff] at h
    unfold replaceEnd
    rw [if_neg (by simp [h.1]), ih h.2]

theorem foldl_replaceEnd_front (pats : List Str) (s : Str) :
    pats.foldl (fun acc pat => replaceEnd pat acc) s <+: s := by
  induction pats generalizing s with
  | nil => exact List.prefix_refl s
  | cons p ps ih =>
    simp only [List.foldl_cons]
    exact List.IsPrefix.trans (ih (replaceEnd p s)) (replaceEnd_front p s)

theorem foldl_replaceEnd_id (pats : List Str) (t : Str)
    (h : ∀ pat ∈ pats, hasTrailing pat t = false) :
    pats.foldl (fun acc pat => replaceEnd pat acc) t = t := by
  induction pats with
  | nil => rfl
  | cons p ps ih =>
    simp only [List.foldl_cons]
    rw [replaceEnd_of_not_hasTrailing p t (h p (List.mem_cons_self p ps))]
    exact ih (fun pat hm => h pat (List.mem_cons_of_mem p hm))

end AV

/-! ### Claim C8: trailing legal-entity suffix removal -/

/-- Claim C8 counterexample: `normalizeCompanyName` can remove two stacked
trailing suffixes in one pass.  On input `Acme AG GmbH` the denylist scan
first strips ` GmbH`, exposing ` AG`, which the later `AG` iteration also
strips, yielding `Acme` — not `Acme AG` as the at-most-one-suffix claim
requires. -/
theorem c8_counterexample :
    AV.normalizeCompanyName (("Acme AG GmbH").data) = ("Acme").data ∧
    AV.normalizeCompanyName (("Acme AG GmbH").data) ≠ ("Acme AG").data := by
  decide

/-- Claim C8 (amended): company-name normalization removes suffixes only at
the end of the string — its result is always a prefix of the trimmed input,
and a trimmed name with no trailing denylisted suffix is returned unchanged.
The scan applies each denylist entry once, in order, so stacked suffixes
appearing in denylist order are all removed (see the counterexample), not
at most one. -/
theorem c8_suffix_strip_amended (s : Str) :
    AV.normalizeCompanyName s <+: trimStr s ∧
    ((∀ pat ∈ AV.suffixPatterns, AV.hasTrailing pat (trimStr s) = false) →
      AV.normalizeCompanyName s = trimStr s) := by
  constructor
  · unfold AV.normalizeCompanyName
    split
    · rename_i h
      subst h
      exact List.nil_prefix
    · exact trimStr_of_prefix_trimStr s _ (AV.foldl_replaceEnd_front _ _)
  · intro hno
    unfold AV.normalizeCompanyName
    split
    · rename_i h
      subst h
      rfl
    · rw [AV.foldl_replaceEnd_id _ _ hno, trimStr_trimStr]

/-- Witness for C8 at a concrete suffix-free name. -/
theorem c8_suffix_strip_amended_witness :
    AV.normalizeCompanyName (("Foo Bar").data) <+: trimStr (("Foo Bar").data) ∧
    AV.normalizeCompanyName (("Foo Bar").data) = trimStr (("Foo Bar").data) :=
  ⟨(c8_suffix_strip_amended _).1, (c8_suffix_strip_amended _).2 (by decide)⟩

/-! ### Claim C7: idempotence of normalization -/

/-- Claim C7 counterexample: normalization is not idempotent.  One pass over
`Acme GmbH AG` strips only ` AG` (the `GmbH` iteration runs first and does
not match), leaving `Acme GmbH`, which a second pass strips further to
`Acme`. -/
theorem c7_counterexample :
    AV.normalizeCompanyName (AV.normalizeCompanyName (("Acme GmbH AG").data))
      ≠ AV.normalizeCompanyName (("Acme GmbH AG").data) := by
  decide

/-- Claim C7 (amended): company-name normalization is idempotent exactly on
those inputs whose normalized form no longer ends in a denylisted suffix
preceded by whitespace (one pass can expose an earlier-listed suffix, as the
counterexample shows); contact sanitization is idempotent for any nonempty
timestamp. -/
theorem c7_idempotence_amended :
    (∀ s : Str,
      (∀ pat ∈ AV.suffixPatterns,
        AV.hasTrailing pat (AV.normalizeCompanyName s) = false) →
      AV.normalizeCompanyName (AV.normalizeCompanyName s) =
        AV.normalizeCompanyName s) ∧
    (∀ (now now2 : Str) (c : AV.AContact), now ≠ [] →
      AV.sanitizeContact now2 (AV.sanitizeContact now c) =
        AV.sanitizeContact now c) := by
  constructor
  · intro s hno
    by_cases h0 : AV.normalizeCompanyName s = []
    · rw [h0]
      rfl
    · have htr : trimStr (AV.normalizeCompanyName s) =
          AV.normalizeCompanyName s := by
        by_cases hs : s = []
        · exfalso
          apply h0
          rw [hs]
          rfl
        · conv_lhs => rw [AV.normalizeCompanyName, if_neg hs]
          conv_rhs => rw [AV.normalizeCompanyName, if_neg hs]
          exact trimStr_trimStr _
      conv_lhs => rw [AV.normalizeCompanyName, if_neg h0]
      rw [htr, AV.foldl_replaceEnd_id _ _ hno]
      exact htr
  · intro now now2 c hnow
    have hu : (("unknown").data : Str) ≠ [] := by decide
    simp only [AV.sanitizeContact, Option.getD_some, AV.AContact.mk.injEq,
      Option.some.injEq]
    refine ⟨trimStr_trimStr _, trimStr_trimStr _, trimStr_trimStr _,
      trimStr_trimStr _, trimStr_trimStr _, ?_, trimStr_trimStr _,
      trimStr_trimStr _, trimStr_trimStr _, ?_, ?_, trivial⟩
    · rw [trimStr_lowerStr, trimStr_trimStr, lowerStr_lowerStr]
    · by_cases hsrc : c.source.getD [] = []
      · simp [hsrc, hu]
      · simp [hsrc]
    · by_cases hsa : c.scrapedAt.getD [] = []
      · simp [hsa, hnow]
      · simp [hsa]

/-- Witness for C7 at concrete inputs. -/
theorem c7_idempotence_amended_witness :
    AV.normalizeCompanyName (AV.normalizeCompanyName (("Beta Corp.").data)) =
      AV.normalizeCompanyName (("Beta Corp.").data) ∧
    AV.sanitizeContact (("T2").data) (AV.sanitizeContact (("T1").data)
      cAllAbsent) = AV.sanitizeContact (("T1").data) cAllAbsent :=
  ⟨c7_idempotence_amended.1 _ (by decide),
   c7_idempotence_amended.2 _ _ _ (by decide)⟩

/-! ### Claim C9: absent fields through normalization -/

/-- Claim C9 counterexample: the Apify `sanitizeContact` replaces absent
optional fields by the empty string (a present value) and invents a source
and a timestamp, so the present/absent distinction is not preserved there. -/
theorem c9_counterexample :
    cAllAbsent.location = none ∧
    (AV.sanitizeContact (("T0").data) cAllAbsent).location = some [] ∧
    (AV.sanitizeContact (("T0").data) cAllAbsent).email = some [] ∧
    (AV.sanitizeContact (("T0").data) cAllAbsent).source =
      some (("unknown").data) := by
  decide

/-- Claim C9 (amended): in the Crawlee variant's candidate normalization
(the object built inside `processCompany`), every absent optional field
(location, salutation, e-mail, phone, job title, profile URL) stays absent
(`null`); the Apify `sanitizeContact` instead substitutes empty strings
(see the counterexample). -/
theorem c9_absent_fields_amended (normalized now : Str) (c : CV.CCand) :
    (c.location = none →
      (CV.mkValidatedObj normalized now c).location = none) ∧
    (c.salutation = none →
      (CV.mkValidatedObj normalized now c).salutation = none) ∧
    (c.email = none → (CV.mkValidatedObj normalized now c).email = none) ∧
    (c.phone = none → (CV.mkValidatedObj normalized now c).phone = none) ∧
    (c.jobTitle = none →
      (CV.mkValidatedObj normalized now c).jobTitle = none) ∧
    (c.linkedInUrl = none →
      (CV.mkValidatedObj normalized now c).linkedInUrl = none) := by
  refine ⟨?_, ?_, ?_, ?_, ?_, ?_⟩ <;>
    (intro h; simp [CV.mkValidatedObj, CV.orNull, h])

/-- Witness for C9 at the all-absent candidate. -/
theorem c9_absent_fields_amended_witness :
    (CV.mkValidatedObj (("Acme").data) (("T0").data) cvAllAbsent).location
      = none ∧
    (CV.mkValidatedObj (("Acme").data) (("T0").data) cvAllAbsent).salutation
      = none ∧
    (CV.mkValidatedObj (("Acme").data) (("T0").data) cvAllAbsent).email
      = none ∧
    (CV.mkValidatedObj (("Acme").data) (("T0").data) cvAllAbsent).phone
      = none ∧
    (CV.mkValidatedObj (("Acme").data) (("T0").data) cvAllAbsent).jobTitle
      = none ∧
    (CV.mkValidatedObj (("Acme").data) (("T0").data) cvAllAbsent).linkedInUrl
      = none := by
  have h := c9_absent_fields_amended (("Acme").data) (("T0").data) cvAllAbsent
  exact ⟨h.1 rfl, h.2.1 rfl, h.2.2.1 rfl, h.2.2.2.1 rfl, h.2.2.2.2.1 rfl,
    h.2.2.2.2.2 rfl⟩

/-! ### Claim C5: deduplication -/

namespace AV

theorem seenInsert_nil (k : Str) (c : AContact) :
    seenInsert k c [] = [(k, c)] := rfl

theorem seenInsert_cons (k : Str) (c : AContact) (k' : Str) (c' : AContact)
    (rest : List (Str × AContact)) :
    seenInsert k c ((k', c') :: rest) =
      if k' = k then
        (k', if priorityOf c > priorityOf c' then c else c') :: rest
      else (k', c') :: seenInsert k c rest := rfl

theorem seenInsert_map_fst (k : Str) (c : AContact)
    (seen : List (Str × AContact)) :
    (seenInsert k c seen).map Prod.fst =
      if k ∈ seen.map Prod.fst then seen.map Prod.fst
      else seen.map Prod.fst ++ [k] := by
  induction seen with
  | nil => simp [seenInsert_nil]
  | cons p rest ih =>
    obtain ⟨k', c'⟩ := p
    rw [seenInsert_cons]
    by_cases hk : k' = k
    · subst hk
      rw [if_pos rfl]
      simp only [List.map_cons]
      rw [if_pos (List.mem_cons_self _ _)]
    · rw [if_neg hk, List.map_cons, ih, List.map_cons]
      by_cases hmem : k ∈ rest.map Prod.fst
      · rw [if_pos hmem, if_pos]
        simp [hmem]
      · rw [if_neg hmem, if_neg]
        · simp
        · simp only [List.mem_cons]
          push_neg
          exact ⟨fun h => hk h.symm, hmem⟩

theorem seenInsert_length (k : Str) (c : AContact)
    (seen : List (Str × AContact)) :
    (seenInsert k c seen).length ≤ seen.length + 1 := by
  induction seen with
  | nil => simp [seenInsert_nil]
  | cons p rest ih =>
    obtain ⟨k', c'⟩ := p
    rw [seenInsert_cons]
    by_cases hk : k' = k
    · rw [if_pos hk]
      simp
    · rw [if_neg hk]
      simp only [List.length_cons]
      omega

theorem seenInsert_keys (k : Str) (c : AContact)
    (seen : List (Str × AContact)) (hc : dedupKey c = some k)
    (h : ∀ p ∈ seen, dedupKey p.2 = some p.1) :
    ∀ p ∈ seenInsert k c seen, dedupKey p.2 = some p.1 := by
  induction seen with
  | nil =>
    intro p hp
    rw [seenInsert_nil] at hp
    simp at hp
    subst hp
    exact hc
  | cons q rest ih =>
    obtain ⟨k', c'⟩ := q
    intro p hp
    rw [seenInsert_cons] at hp
    by_cases hk : k' = k
    · rw [if_pos hk] at hp
      rcases List.mem_cons.mp hp with hp | hp
      · subst hp
        dsimp only
        split
        · rw [hc, hk]
        · simpa using h (k', c') (List.mem_cons_self _ _)
      · exact h p (List.mem_cons_of_mem _ hp)
    · rw [if_neg hk] at hp
      rcases List.mem_cons.mp hp with hp | hp
      · subst hp
        exact h (k', c') (List.mem_cons_self _ _)
      · exact ih (fun q hq => h q (List.mem_cons_of_mem _ hq)) p hp

theorem dedupStep_eq_none (seen : List (Str × AContact)) (c : AContact)
    (h : dedupKey c = none) : dedupStep seen c = seen := by
  unfold dedupStep
  rw [h]

theorem dedupStep_eq_some (seen : List (Str × AContact)) (c : AContact)
    (k : Str) (h : dedupKey c = some k) :
    dedupStep seen c = seenInsert k c seen := by
  unfold dedupStep
  rw [h]

theorem dedup_fold_inv (contacts : List AContact) :
    ∀ seen : List (Str × AContact),
    (∀ p ∈ seen, dedupKey p.2 = some p.1) →
    (seen.map Prod.fst).Nodup →
    (∀ p ∈ contacts.foldl dedupStep seen, dedupKey p.2 = some p.1) ∧
    ((contacts.foldl dedupStep seen).map Prod.fst).Nodup ∧
    (contacts.foldl dedupStep seen).length ≤
      seen.length + contacts.length := by
  induction contacts with
  | nil =>
    intro seen h1 h2
    exact ⟨h1, h2, by simp⟩
  | cons c cs ih =>
    intro seen h1 h2
    simp only [List.foldl_cons]
    cases hdk : dedupKey c with
    | none =>
      rw [dedupStep_eq_none seen c hdk]
      obtain ⟨g1, g2, g3⟩ := ih seen h1 h2
      refine ⟨g1, g2, ?_⟩
      simp only [List.length_cons]
      omega
    | some k =>
      rw [dedupStep_eq_some seen c k hdk]
      have hk1 := seenInsert_keys k c seen hdk h1
      have hk2 : ((seenInsert k c seen).map Prod.fst).Nodup := by
        rw [seenInsert_map_fst]
        split
        · exact h2
        · rename_i hmem
          rw [List.nodup_append]
          refine ⟨h2, List.nodup_singleton k, ?_⟩
          intro a ha hb
          simp at hb
          subst hb
          exact hmem ha
      obtain ⟨g1, g2, g3⟩ := ih (seenInsert k c seen) hk1 hk2
      refine ⟨g1, g2, ?_⟩
      have := seenInsert_length k c seen
      simp only [List.length_cons]
      omega

end AV

/-- Claim C5 counterexample: a candidate with no e-mail is dropped by the
deduplicator (`if (!email) continue`), not passed through individually. -/
theorem c5_counterexample :
    cAllAbsent.email = none ∧ AV.deduplicateContacts [cAllAbsent] = [] := by
  decide

/-- Claim C5 (amended): the deduplicator groups by lower-cased e-mail,
its output is never longer than its input, output e-mails are pairwise
distinct under case-insensitive comparison — but candidates with no (or
empty) e-mail are dropped, not passed through: every surviving contact has
a nonempty e-mail key. -/
theorem c5_dedup_amended (contacts : List AV.AContact) :
    (AV.deduplicateContacts contacts).length ≤ contacts.length ∧
    (∀ c ∈ AV.deduplicateContacts contacts, AV.dedupKey c ≠ none) ∧
    (AV.deduplicateContacts contacts).Pairwise
      (fun a b => AV.dedupKey a ≠ AV.dedupKey b) := by
  obtain ⟨h1, h2, h3⟩ :=
    AV.dedup_fold_inv contacts [] (by simp) (by simp)
  unfold AV.deduplicateContacts
  refine ⟨by simpa using h3, ?_, ?_⟩
  · intro c hc
    simp only [List.mem_map] at hc
    obtain ⟨p, hp, hpe⟩ := hc
    rw [← hpe, h1 p hp]
    simp
  · rw [List.pairwise_map]
    have hpair : (contacts.foldl AV.dedupStep []).Pairwise
        (fun p q => p.1 ≠ q.1) := List.pairwise_map.mp h2
    apply List.Pairwise.imp_of_mem ?_ hpair
    intro p q hpm hqm hne heq
    apply hne
    have e1 := h1 p hpm
    have e2 := h1 q hqm
    rw [e1, e2] at heq
    exact Option.some.inj heq

/-- Witness for C5 at a concrete one-element list. -/
theorem c5_dedup_amended_witness :
    (AV.deduplicateContacts [cAllAbsent]).length ≤ 1 ∧
    (∀ c ∈ AV.deduplicateContacts [cAllAbsent], AV.dedupKey c ≠ none) ∧
    (AV.deduplicateContacts [cAllAbsent]).Pairwise
      (fun a b => AV.dedupKey a ≠ AV.dedupKey b) :=
  c5_dedup_amended [cAllAbsent]

/-! ### Claim C3: the e-mail validator -/

/-- Claim C3 counterexample: the Apify validator's denylist has no
`no-reply` entry (only `noreply`), so `no-reply@example.com` — whose local
part is exactly the claimed denylisted token `no-reply` — is accepted. -/
theorem c3_counterexample :
    AV.isValidEmail (some (("no-reply@example.com").data)) = true ∧
    lowerStr (AV.localPartOf (("no-reply@example.com").data)) =
      ("no-reply").data := by
  decide

/-- Claim C3 (amended): the validator rejects every e-mail whose lower-cased
local part equals, or starts with followed by a dot, one of the eight
denylisted tokens info, contact, office, hello, mail, support, admin,
noreply (`no-reply` is not denylisted — see the counterexample), regardless
of syntax; and it accepts exactly the addresses matching its simplified
RFC 5322 grammar whose local part is not generic (no length bound is
enforced in this variant, so in particular all such addresses of length
≤ 254 are accepted). -/
theorem c3_email_validator_amended (email : Str) :
    (AV.genericLocal email = true → AV.isValidEmail (some email) = false) ∧
    (AV.emailRegexOk email = true → AV.genericLocal email = false →
      AV.isValidEmail (some email) = true) := by
  constructor
  · intro hg
    simp [AV.isValidEmail, hg]
  · intro hr hg
    have hne : email.isEmpty = false := by
      cases email with
      | nil => simp [AV.emailRegexOk, splitFirst] at hr
      | cons c rest => rfl
    simp [AV.isValidEmail, hne, hg, hr]

/-- Witness for C3: a non-generic valid address is accepted, a generic one
rejected. -/
theorem c3_email_validator_amended_witness :
    AV.isValidEmail (some (("anna.mueller@example.com").data)) = true ∧
    AV.isValidEmail (some (("support@example.com").data)) = false :=
  ⟨(c3_email_validator_amended _).2 (by decide) (by decide),
   (c3_email_validator_amended _).1 (by decide)⟩

/-! ### Claim C6: the role priority score -/

theorem AV.rolePriorityLoop_eq (titleL : Str) (roles : List Str) (i : Nat) :
    AV.rolePriorityLoop titleL roles i =
      match (List.enumFrom i roles).findSome?
        (fun p => (AV.matchClass titleL p.2).map (fun b => (p.1, b))) with
      | some (j, true) => 1000 - (j : Int)
      | some (j, false) => 500 - (j : Int)
      | none =>
        if AV.leadershipKeywords.any (fun kw => containsSub titleL kw)
          then 100 else 0 := by
  induction roles generalizing i with
  | nil => rfl
  | cons r rest ih =>
    rw [List.enumFrom, List.findSome?_cons]
    unfold AV.rolePriorityLoop AV.matchClass
    by_cases h1 : titleL = lowerStr r
    · rw [if_pos h1]
      simp [h1]
    · rw [if_neg h1]
      by_cases h2 : containsSub titleL (lowerStr r) ||
          containsSub (lowerStr r) titleL
      · rw [if_pos h2]
        simp [h1, h2]
      · rw [if_neg h2]
        simp only [if_neg h1, if_neg h2]
        rw [show (Option.map (fun b => (i, b)) none) = none from rfl]
        exact ih (i + 1)

/-- Claim C6 counterexample: at the empty job title the claimed formula
fails.  The empty string is a substring of every target role (here `CTO`
contains it, a substring match at position 0, so the claim's formula gives
`500 - 0`), but the code's falsy-title guard (`if (!jobTitle) return 0`)
returns 0. -/
theorem c6_counterexample :
    AV.calculateRolePriority [] [("CTO").data] = 0 ∧
    containsSub (lowerStr (("CTO").data)) (lowerStr ([] : Str)) = true ∧
    (0 : Int) ≠ 500 - (0 : Int) := by
  decide

/-- Claim C6 (amended): the empty (falsy) job title is guarded and scores
0, even though the empty string is a substring of every target role; every
nonempty job title is scored by the ordered scan: at the first role
position `i` where the lower-cased title matches, `1000 - i` for an exact
match and `500 - i` for a substring match (in either direction); with no
match anywhere, 100 when the title contains a leadership keyword and 0
otherwise.  The score is a pure function of the job title and the role
list. -/
theorem c6_role_priority (jobTitle : Str) (targetRoles : List Str) :
    (jobTitle = [] →
      AV.calculateRolePriority jobTitle targetRoles = 0) ∧
    (jobTitle ≠ [] →
      AV.calculateRolePriority jobTitle targetRoles =
        match AV.firstRoleMatch (lowerStr jobTitle) targetRoles with
        | some (i, true) => 1000 - (i : Int)
        | some (i, false) => 500 - (i : Int)
        | none =>
          if AV.leadershipKeywords.any
              (fun kw => containsSub (lowerStr jobTitle) kw) then 100
          else 0) := by
  constructor
  · intro h
    unfold AV.calculateRolePriority
    rw [if_pos h]
  · intro h
    unfold AV.calculateRolePriority
    rw [if_neg h]
    exact AV.rolePriorityLoop_eq (lowerStr jobTitle) targetRoles 0

/-- Witness for C6 at the guarded empty title and at a concrete nonempty
title. -/
theorem c6_role_priority_witness :
    AV.calculateRolePriority [] [("CTO").data] = 0 ∧
    AV.calculateRolePriority (("CTO").data)
      [("CTO").data, ("CIO").data] = 1000 :=
  ⟨(c6_role_priority [] [("CTO").data]).1 rfl,
   by
    rw [(c6_role_priority (("CTO").data) [("CTO").data, ("CIO").data]).2
      (by decide)]
    decide⟩

/-! ### Claim C2: the per-organization limiter -/

namespace AV

theorem addToGroup_nil (c : AContact) :
    addToGroup c [] = [(c.company, [c])] := rfl

theorem addToGroup_cons (c : AContact) (k : Str) (g : List AContact)
    (rest : List (Str × List AContact)) :
    addToGroup c ((k, g) :: rest) =
      if k = c.company then (k, g ++ [c]) :: rest
      else (k, g) :: addToGroup c rest := rfl

theorem groupFind_addToGroup (k : Str) (c : AContact)
    (gs : List (Str × List AContact)) :
    groupFind k (addToGroup c gs) =
      if c.company = k then groupFind k gs ++ [c] else groupFind k gs := by
  induction gs with
  | nil =>
    rw [addToGroup_nil]
    unfold groupFind
    by_cases h : c.company = k
    · rw [if_pos h, if_pos h]
      rfl
    · rw [if_neg h, if_neg h]
      rfl
  | cons p rest ih =>
    obtain ⟨k', g⟩ := p
    rw [addToGroup_cons]
    by_cases h1 : k' = c.company
    · rw [if_pos h1]
      unfold groupFind
      by_cases h2 : k' = k
      · rw [if_pos h2, if_pos (by rw [← h1, h2]), if_pos h2]
      · rw [if_neg h2, if_neg (by rw [← h1]; exact h2), if_neg h2]
    · rw [if_neg h1]
      unfold groupFind
      by_cases h2 : k' = k
      · rw [if_pos h2, if_pos h2, if_neg (by rw [← h2]; exact fun hh => h1 hh.symm)]
      · rw [if_neg h2, if_neg h2, ih]

theorem groupFind_foldl (l : List AContact) :
    ∀ (gs : List (Str × List AContact)) (k : Str),
    groupFind k (l.foldl (fun gs c => addToGroup c gs) gs) =
      groupFind k gs ++ l.filter (fun c => c.company = k) := by
  induction l with
  | nil =>
    intro gs k
    simp
  | cons c cs ih =>
    intro gs k
    simp only [List.foldl_cons, List.filter_cons]
    rw [ih, groupFind_addToGroup]
    by_cases h : c.company = k
    · rw [if_pos h]
      simp [h]
    · rw [if_neg h]
      simp [h]

theorem addToGroup_map_fst (c : AContact)
    (gs : List (Str × List AContact)) :
    (addToGroup c gs).map Prod.fst =
      if c.company ∈ gs.map Prod.fst then gs.map Prod.fst
      else gs.map Prod.fst ++ [c.company] := by
  induction gs with
  | nil => simp [addToGroup_nil]
  | cons p rest ih =>
    obtain ⟨k', g⟩ := p
    rw [addToGroup_cons]
    by_cases hk : k' = c.company
    · subst hk
      rw [if_pos rfl]
      simp only [List.map_cons]
      rw [if_pos (List.mem_cons_self _ _)]
    · rw [if_neg hk, List.map_cons, ih, List.map_cons]
      by_cases hmem : c.company ∈ rest.map Prod.fst
      · rw [if_pos hmem, if_pos]
        simp [hmem]
      · rw [if_neg hmem, if_neg]
        · simp
        · simp only [List.mem_cons]
          push_neg
          exact ⟨fun h => hk h.symm, hmem⟩

theorem addToGroup_members (c : AContact)
    (gs : List (Str × List AContact))
    (h : ∀ p ∈ gs, ∀ x ∈ p.2, x.company = p.1) :
    ∀ p ∈ addToGroup c gs, ∀ x ∈ p.2, x.company = p.1 := by
  induction gs with
  | nil =>
    intro p hp
    rw [addToGroup_nil] at hp
    simp at hp
    subst hp
    intro x hx
    simp at hx
    subst hx
    rfl
  | cons q rest ih =>
    obtain ⟨k', g⟩ := q
    intro p hp
    rw [addToGroup_cons] at hp
    by_cases hk : k' = c.company
    · rw [if_pos hk] at hp
      rcases List.mem_cons.mp hp with hp | hp
      · subst hp
        intro x hx
        rcases List.mem_append.mp hx with hx | hx
        · exact h (k', g) (List.mem_cons_self _ _) x hx
        · simp at hx
          subst hx
          exact hk.symm
      · exact h p (List.mem_cons_of_mem _ hp)
    · rw [if_neg hk] at hp
      rcases List.mem_cons.mp hp with hp | hp
      · subst hp
        exact h (k', g) (List.mem_cons_self _ _)
      · exact ih (fun q hq => h q (List.mem_cons_of_mem _ hq)) p hp

theorem buildGroups_inv (l : List AContact) :
    ∀ gs : List (Str × List AContact),
    (∀ p ∈ gs, ∀ x ∈ p.2, x.company = p.1) →
    ((gs.map Prod.fst).Nodup) →
    (∀ p ∈ l.foldl (fun gs c => addToGroup c gs) gs,
      ∀ x ∈ p.2, x.company = p.1) ∧
    ((l.foldl (fun gs c => addToGroup c gs) gs).map Prod.fst).Nodup := by
  induction l with
  | nil =>
    intro gs h1 h2
    exact ⟨h1, h2⟩
  | cons c cs ih =>
    intro gs h1 h2
    simp only [List.foldl_cons]
    apply ih
    · exact addToGroup_members c gs h1
    · rw [addToGroup_map_fst]
      split
      · exact h2
      · rename_i hmem
        rw [List.nodup_append]
        refine ⟨h2, List.nodup_singleton _, ?_⟩
        intro a ha hb
        simp at hb
        subst hb
        exact hmem ha

theorem collectLimited_countP_zero (m : Nat) (comp : Str)
    (gs : List (Str × List AContact))
    (hwf : ∀ p ∈ gs, ∀ x ∈ p.2, x.company = p.1)
    (hout : comp ∉ gs.map Prod.fst) :
    (collectLimited m gs).countP (fun c => c.company = comp) = 0 := by
  induction gs with
  | nil => rfl
  | cons p rest ih =>
    obtain ⟨k, g⟩ := p
    unfold collectLimited
    rw [List.countP_append]
    have hk : k ≠ comp := by
      intro h
      exact hout (by simp [h])
    have h0 : (g.take m).countP (fun c => c.company = comp) = 0 := by
      rw [List.countP_eq_zero]
      intro a ha
      have := hwf (k, g) (List.mem_cons_self _ _) a (List.take_subset m g ha)
      simp only [this]
      simpa using hk
    rw [h0, ih (fun q hq => hwf q (List.mem_cons_of_mem _ hq))
      (fun h => hout (List.mem_cons_of_mem _ h))]

theorem collectLimited_countP (m : Nat) (comp : Str) :
    ∀ gs : List (Str × List AContact),
    (∀ p ∈ gs, ∀ x ∈ p.2, x.company = p.1) →
    ((gs.map Prod.fst).Nodup) →
    (collectLimited m gs).countP (fun c => c.company = comp) =
      ((groupFind comp gs).take m).length := by
  intro gs
  induction gs with
  | nil =>
    intro h1 h2
    simp [collectLimited, groupFind]
  | cons p rest ih =>
    intro h1 h2
    obtain ⟨k, g⟩ := p
    unfold collectLimited groupFind
    rw [List.countP_append]
    by_cases hk : k = comp
    · rw [if_pos hk]
      have hall : (g.take m).countP (fun c => c.company = comp) =
          (g.take m).length := by
        rw [List.countP_eq_length]
        intro a ha
        have := h1 (k, g) (List.mem_cons_self _ _) a (List.take_subset m g ha)
        simp [this, hk]
      have hz : (collectLimited m rest).countP
          (fun c => c.company = comp) = 0 := by
        apply collectLimited_countP_zero m comp rest
          (fun q hq => h1 q (List.mem_cons_of_mem _ hq))
        have := h2
        simp only [List.map_cons, List.nodup_cons] at this
        rw [← hk]
        exact this.1
      rw [hall, hz]
      omega
    · rw [if_neg hk]
      have h0 : (g.take m).countP (fun c => c.company = comp) = 0 := by
        rw [List.countP_eq_zero]
        intro a ha
        have := h1 (k, g) (List.mem_cons_self _ _) a (List.take_subset m g ha)
        simp only [this]
        simpa using hk
      rw [h0, ih (fun q hq => h1 q (List.mem_cons_of_mem _ hq))
        (by simp only [List.map_cons, List.nodup_cons] at h2; exact h2.2)]
      omega

end AV

/-- Claim C2: for every organization, the limiter emits exactly
`min maxPerCompany n` records for that organization, where `n` is the
number of its candidates in the input — hence never more than the
configured maximum and never fewer than the available candidates up to
that maximum. -/
theorem c2_limiter_counts (contacts : List AV.AContact)
    (maxPerCompany : Nat) (comp : Str) :
    (AV.limitContactsPerCompany contacts maxPerCompany).countP
        (fun c => c.company = comp) =
      min maxPerCompany (contacts.countP (fun c => c.company = comp)) ∧
    (AV.limitContactsPerCompany contacts maxPerCompany).countP
        (fun c => c.company = comp) ≤ maxPerCompany := by
  have hinv := AV.buildGroups_inv contacts [] (by simp) (by simp)
  have hc := AV.collectLimited_countP maxPerCompany comp
    (AV.buildGroups contacts) hinv.1 hinv.2
  have hg : AV.groupFind comp (AV.buildGroups contacts) =
      contacts.filter (fun c => c.company = comp) := by
    have := AV.groupFind_foldl contacts [] comp
    simpa [AV.buildGroups, AV.groupFind] using this
  constructor
  · unfold AV.limitContactsPerCompany
    rw [hc, hg, List.length_take, List.countP_eq_length_filter]
  · unfold AV.limitContactsPerCompany
    rw [hc]
    have := List.length_take_le maxPerCompany
      (AV.groupFind comp (AV.buildGroups contacts))
    omega

/-! ### Claim C10: contactsValid = contactsSaved -/

namespace AV

theorem saveStep_valid_eq_saved (st : Stats) (c : AContact)
    (h : st.contactsValid = st.contactsSaved) :
    (saveStep st c).contactsValid = (saveStep st c).contactsSaved := by
  unfold saveStep
  split
  · simpa using h
  · exact h

theorem foldl_saveStep_valid_eq_saved (l : List AContact) :
    ∀ st : Stats, st.contactsValid = st.contactsSaved →
    (l.foldl saveStep st).contactsValid =
      (l.foldl saveStep st).contactsSaved := by
  induction l with
  | nil => intro st h; exact h
  | cons c cs ih =>
    intro st h
    simp only [List.foldl_cons]
    exact ih (saveStep st c) (saveStep_valid_eq_saved st c h)

theorem companyStep_valid_eq_saved (targetRoles : List Str)
    (maxPerCompany : Nat) (st : Stats)
    (job : List AContact × CompanyOutcome)
    (h : st.contactsValid = st.contactsSaved) :
    (companyStep targetRoles maxPerCompany st job).contactsValid =
      (companyStep targetRoles maxPerCompany st job).contactsSaved := by
  unfold companyStep
  cases job.2 with
  | completed =>
    simpa using foldl_saveStep_valid_eq_saved _ _ (by simpa using h)
  | aborted k =>
    simpa using foldl_saveStep_valid_eq_saved _ _ (by simpa using h)

end AV

/-- Claim C10: in the Apify pipeline the counters `contactsValid` and
`contactsSaved` are incremented only together (in the save loop, by one per
contact passing `validateContact`), and no other update of the run
statistics touches them, so at the end of any run — over any company list,
with any mix of completed and exception-aborted companies — the persisted
statistics satisfy `contactsValid = contactsSaved`. -/
theorem c10_valid_eq_saved (targetRoles : List Str) (maxPerCompany : Nat)
    (jobs : List (List AV.AContact × AV.CompanyOutcome)) :
    (AV.runStats targetRoles maxPerCompany jobs).contactsValid =
      (AV.runStats targetRoles maxPerCompany jobs).contactsSaved := by
  unfold AV.runStats
  have : ∀ (js : List (List AV.AContact × AV.CompanyOutcome)) (st : AV.Stats),
      st.contactsValid = st.contactsSaved →
      (js.foldl (AV.companyStep targetRoles maxPerCompany) st).contactsValid =
        (js.foldl (AV.companyStep targetRoles maxPerCompany) st).contactsSaved := by
    intro js
    induction js with
    | nil => intro st h; exact h
    | cons j rest ih =>
      intro st h
      simp only [List.foldl_cons]
      exact ih _ (AV.companyStep_valid_eq_saved _ _ _ _ h)
  exact this jobs AV.initStats rfl

/-! ### Claim C1: the rate limiter under concurrency -/

/-- Claim C1 failing trace: with `lastCall(k) = 10000` and
`minDelay = 1000`, task 0 calls `waitFor(k)` at t = 10500 and task 1 at
t = 10600.  Both read the stale timestamp 10000 before either writes
(`await sleep` suspends between the read and the write), so task 0 sleeps
500 ms and task 1 sleeps 400 ms, and both complete at t = 11000: two
consecutive completions for the same key separated by 0 ms < minDelay,
which the claimed per-key atomic read-then-write critical section would
make impossible. -/
theorem c1_rate_limiter_race :
    (RL.runSched 1000 rlSys0 rlSched).tasks =
      [{ key := rlKey, arrive := 10500,
         phase := RL.TPhase.done 11000 true },
       { key := rlKey, arrive := 10600,
         phase := RL.TPhase.done 11000 true }] ∧
    (11000 : Nat) - 11000 < 1000 := by
  decide

/-! ### Claim C4: phone-only backfill in `processCompany` -/

theorem filter_dropWhile_ws (q : Char → Bool)
    (hq : ∀ a, isWsChar a = true → q a = false) (l : Str) :
    (l.dropWhile isWsChar).filter q = l.filter q := by
  induction l with
  | nil => rfl
  | cons c t ih =>
    by_cases h : isWsChar c
    · rw [List.dropWhile_cons, if_pos (by simp [h]), ih, List.filter_cons,
        if_neg (by simp [hq c h])]
    · rw [List.dropWhile_cons, if_neg (by simp [h])]

namespace CV

theorem stripPhone_trimStr (p : Str) :
    stripPhone (trimStr p) = stripPhone p := by
  have hq : ∀ a, isWsChar a = true →
      (!(isWsChar a || a = '(' || a = ')' || a = '-' || a = '.')) = false := by
    intro a ha
    simp [ha]
  unfold stripPhone trimStr trimRightStr
  rw [List.filter_reverse, filter_dropWhile_ws _ hq, List.filter_reverse,
    List.reverse_reverse, filter_dropWhile_ws _ hq]

theorem isValidPhone_nil : isValidPhone [] = false := rfl

theorem mkValidatedObj_email_none (n t : Str) (c : CCand)
    (h : present c.email = false) : (mkValidatedObj n t c).email = none := by
  unfold mkValidatedObj
  cases hc : c.email with
  | none => rfl
  | some e =>
    rw [hc] at h
    simp only [present, Bool.not_eq_false'] at h
    simp [h, orNull]

theorem phoneValidObjOf_eq (c : CCand) :
    phoneValidObjOf c =
      (present c.phone && isValidPhone (stripPhone (c.phone.getD []))) := by
  unfold phoneValidObjOf
  cases hc : c.phone with
  | none => simp [present, orNull]
  | some p =>
    by_cases hp : p.isEmpty
    · simp [present, hp, orNull]
    · simp only [present, hp, if_neg (by simp [hp] : ¬p.isEmpty = true)]
      rw [stripPhone_trimStr]
      by_cases hq : (stripPhone p).isEmpty
      · have : stripPhone p = [] := by simpa using hq
        simp [orNull, hq, this, isValidPhone_nil]
      · simp [orNull, hq, Option.getD_some]

theorem validStep_characterize (n t : Str) (c : CCand)
    (he : emailValidOf c = false)
    (hp : emailBacked c = true → phoneValidObjOf c = false) :
    validStep n t c =
      if phoneOnlyValid c then some (mkValidatedObj n t c) else none := by
  have he2 : (match (mkValidatedObj n t c).email with
              | some e => isValidEmail e
              | none => false) = false := he
  have hp2 : (match (mkValidatedObj n t c).phone with
              | some p => isValidPhone p
              | none => false) = phoneValidObjOf c := rfl
  simp only [validStep]
  rw [he2, hp2]
  rw [if_neg (by simp)]
  cases hb : emailBacked c with
  | true =>
    rw [hp hb]
    have hpo : phoneOnlyValid c = false := by
      unfold phoneOnlyValid
      unfold emailBacked at hb
      simp [hb]
    rw [hpo]
  | false =>
    have hpo : phoneOnlyValid c = phoneValidObjOf c := by
      unfold phoneOnlyValid
      rw [phoneValidObjOf_eq]
      unfold emailBacked at hb
      rw [hb]
      simp [Bool.and_assoc]
    rw [hpo]

theorem filterMap_validStep (n t : Str) (cands : List CCand)
    (h : ∀ c ∈ cands, emailValidOf c = false ∧
      (emailBacked c = true → phoneValidObjOf c = false)) :
    cands.filterMap (validStep n t) =
      (cands.filter phoneOnlyValid).map (mkValidatedObj n t) := by
  induction cands with
  | nil => rfl
  | cons c cs ih =>
    rw [List.filterMap_cons, List.filter_cons]
    obtain ⟨he, hpc⟩ := h c (List.mem_cons_self _ _)
    rw [validStep_characterize n t c he hpc]
    have ihh := ih (fun d hd => h d (List.mem_cons_of_mem _ hd))
    by_cases hc : phoneOnlyValid c
    · rw [if_pos hc, if_pos (by simp [hc])]
      simp only [List.map_cons]
      rw [ihh]
    · rw [if_neg hc, if_neg (by simp [hc] : ¬phoneOnlyValid c = true)]
      exact ihh

theorem backfillLoop_nil (n t : Str) (acc : List CContact) :
    backfillLoop n t acc [] = acc := rfl

theorem backfillLoop_cons (n t : Str) (acc : List CContact) (c : CCand)
    (rest : List CCand) :
    backfillLoop n t acc (c :: rest) =
      if 2 ≤ acc.length then acc
      else if !(present c.email) && present c.phone then
        if isValidPhone (stripPhone (c.phone.getD [])) then
          backfillLoop n t (acc ++ [backfillObj n t c]) rest
        else backfillLoop n t acc rest
      else backfillLoop n t acc rest := rfl

theorem backfillLoop_no_hits (n t : Str) (cands : List CCand) :
    ∀ acc : List CContact, cands.filter phoneOnlyValid = [] →
    backfillLoop n t acc cands = acc := by
  induction cands with
  | nil => intro acc _; rfl
  | cons c cs ih =>
    intro acc h
    rw [List.filter_cons] at h
    have hc : phoneOnlyValid c = false := by
      by_cases hx : phoneOnlyValid c
      · rw [if_pos (by simp [hx])] at h
        simp at h
      · simpa using hx
    rw [if_neg (by simp [hc] : ¬phoneOnlyValid c = true)] at h
    rw [backfillLoop_cons]
    by_cases hl : 2 ≤ acc.length
    · rw [if_pos hl]
    · rw [if_neg hl]
      by_cases h1 : (!(present c.email) && present c.phone) = true
      · rw [if_pos h1]
        by_cases h2 : isValidPhone (stripPhone (c.phone.getD [])) = true
        · exfalso
          have hx : phoneOnlyValid c = true := by
            unfold phoneOnlyValid
            rw [h1, h2]
            rfl
          rw [hx] at hc
          simp at hc
        · rw [if_neg h2]
          exact ih acc h
      · rw [if_neg h1]
        exact ih acc h

theorem backfillLoop_single (n t : Str) (cands : List CCand) (x : CCand)
    (h : cands.filter phoneOnlyValid = [x]) :
    backfillLoop n t [] cands = [backfillObj n t x] := by
  induction cands with
  | nil => simp at h
  | cons c cs ih =>
    rw [List.filter_cons] at h
    rw [backfillLoop_cons, if_neg (by simp : ¬2 ≤ ([] : List CContact).length)]
    by_cases hc : phoneOnlyValid c
    · rw [if_pos (by simp [hc])] at h
      have hcx : c = x ∧ cs.filter phoneOnlyValid = [] := by
        have := List.cons_eq_cons.mp h
        simpa using this
      have hsplit : (!(present c.email) && present c.phone) = true ∧
          isValidPhone (stripPhone (c.phone.getD [])) = true := by
        have hx := hc
        unfold phoneOnlyValid at hx
        simpa [Bool.and_eq_true] using hx
      have h1 := hsplit.1
      have h2 := hsplit.2
      rw [if_pos h1, if_pos h2, backfillLoop_no_hits n t cs _ hcx.2]
      rw [hcx.1]
      rfl
    · rw [if_neg (by simp [hc] : ¬phoneOnlyValid c = true)] at h
      by_cases h1 : (!(present c.email) && present c.phone) = true
      · rw [if_pos h1]
        by_cases h2 : isValidPhone (stripPhone (c.phone.getD [])) = true
        · exfalso
          have hx : phoneOnlyValid c = true := by
            unfold phoneOnlyValid
            rw [h1, h2]
            rfl
          exact hc (by simp [hx])
        · rw [if_neg h2]
          exact ih h
      · rw [if_neg h1]
        exact ih h

end CV

/-- Claim C4 counterexample: the claim's hypotheses hold for this input —
no candidate has a valid e-mail, and exactly one validated phone-only
candidate exists — yet `processCompany` emits two records, the first with
a non-null (invalid) e-mail: a candidate whose e-mail is invalid but whose
phone validates enters the validated pool and the e-mail-keyed dedupe, and
the backfill then appends the phone-only candidate on top of it. -/
theorem c4_counterexample :
    (∀ c ∈ [c4BadEmail, c4PhoneOnly], CV.emailValidOf c = false) ∧
    [c4BadEmail, c4PhoneOnly].filter CV.phoneOnlyValid = [c4PhoneOnly] ∧
    (CV.processCompany c4Comp c4Now [c4BadEmail, c4PhoneOnly]).length = 2 ∧
    CV.processCompany c4Comp c4Now [c4BadEmail, c4PhoneOnly] =
      [CV.mkValidatedObj c4Comp c4Now c4BadEmail,
       CV.backfillObj c4Comp c4Now c4PhoneOnly] ∧
    (CV.mkValidatedObj c4Comp c4Now c4BadEmail).email =
      some (("not-an-email").data) := by
  decide

/-- Claim C4 (amended): if no candidate passes e-mail validation, every
e-mail-bearing candidate also fails phone validation (so nothing but the
phone-only pool validates), and exactly one validated phone-only candidate
exists, then with the limit of two `processCompany` emits exactly one
record: the backfill object of that candidate, with a null e-mail and a
validated phone. -/
theorem c4_backfill_amended (normalized now : Str) (cands : List CV.CCand)
    (cstar : CV.CCand)
    (h1 : ∀ c ∈ cands, CV.emailValidOf c = false ∧
      (CV.emailBacked c = true → CV.phoneValidObjOf c = false))
    (h2 : cands.filter CV.phoneOnlyValid = [cstar]) :
    CV.processCompany normalized now cands =
      [CV.backfillObj normalized now cstar] ∧
    (CV.backfillObj normalized now cstar).email = none ∧
    CV.isValidPhone ((CV.backfillObj normalized now cstar).phone.getD [])
      = true := by
  have hstar : CV.phoneOnlyValid cstar = true := by
    have hm : cstar ∈ cands.filter CV.phoneOnlyValid := by
      rw [h2]
      exact List.mem_singleton.mpr rfl
    exact (List.mem_filter.mp hm).2
  have hsplit : present cstar.email = false ∧
      CV.isValidPhone (CV.stripPhone (cstar.phone.getD [])) = true := by
    have hx := hstar
    unfold CV.phoneOnlyValid at hx
    simp only [Bool.and_eq_true, Bool.not_eq_true'] at hx
    exact ⟨hx.1.1, hx.2⟩
  have hpe := hsplit.1
  have hph := hsplit.2
  have hval : cands.filterMap (CV.validStep normalized now) =
      [CV.mkValidatedObj normalized now cstar] := by
    rw [CV.filterMap_validStep normalized now cands h1, h2]
    rfl
  have hemail : (CV.mkValidatedObj normalized now cstar).email = none :=
    CV.mkValidatedObj_email_none _ _ _ hpe
  have hded : CV.dedupeByEmail [CV.mkValidatedObj normalized now cstar]
      = [] := by
    unfold CV.dedupeByEmail
    rw [List.foldl_cons, hemail]
    rfl
  simp only [CV.processCompany]
  rw [hval, hded]
  rw [if_pos (by simp : ([] : List CV.CContact).length < 2)]
  rw [CV.backfillLoop_single _ _ _ _ h2]
  refine ⟨rfl, rfl, ?_⟩
  simpa [CV.backfillObj] using hph

/-- Witness for C4: a single phone-only candidate yields exactly its
backfill record. -/
theorem c4_backfill_amended_witness :
    CV.processCompany c4Comp c4Now [c4PhoneOnly] =
      [CV.backfillObj c4Comp c4Now c4PhoneOnly] ∧
    (CV.backfillObj c4Comp c4Now c4PhoneOnly).email = none ∧
    CV.isValidPhone
      ((CV.backfillObj c4Comp c4Now c4PhoneOnly).phone.getD []) = true :=
  c4_backfill_amended c4Comp c4Now [c4PhoneOnly] c4PhoneOnly (by decide)
    (by decide)
